import Mathlib

/-!
# Verification of the `ado` task tracker core

Shallow embedding of the `ado` repository (`src/main.rs` and
`src/core/mod.rs`): the status state machine, the in-memory store
(`FakeTodoList` over a `VecMap`), the cursor component (`TaskPicker`),
the file-backed store (`FileTodoList`) over a model of the data
directory, and the display projections.

Conventions used throughout:
* Rust mutation is modelled by explicit state passing: a method
  `fn f(&mut self) -> Result<T, Error>` becomes a Lean function
  returning `Except Error T × State` (the state is returned unchanged
  on the error path, mirroring the fact that the Rust code does not
  mutate before returning `Err`).
* A Rust panic (`panic!`, a failed `assert_eq!`, or an out-of-bounds
  index such as `&self.tasks[id]` on a `VecMap`/`HashMap`) is modelled
  by an outer `Option` being `none`: a panic is not an `Error` value.
* Machine integers (`usize`) are modelled by `Nat`; the program only
  ever increments the id counter and subtracts in guarded positions
  where Rust's `usize` cannot underflow, so no wrap-around modelling is
  needed.
* I/O errors carry payloads in Rust (`Error::Io(std::io::Error)` in
  `main.rs`, `Error::External(..)` in `core/mod.rs`); the payload is
  irrelevant to every claim, so both are collapsed into a payload-free
  `Error.Io` constructor.
-/

namespace Ado

/-- Model of `Status` from the source: `enum Status { Open, Done, Wont }`. -/
inductive Status : Type
  | Open
  | Done
  | Wont
  deriving DecidableEq, Repr

/-- The error enumeration; `Io` stands for `main.rs`'s `Io(..)` and
`core/mod.rs`'s `External(..)` (payload dropped), the other constructors
are shared verbatim by both files. -/
inductive Error : Type
  | AlreadyDone
  | AlreadyWont
  | Io
  | NoSuchTask
  | NoSuchCommand
  deriving DecidableEq, Repr

/-- Model of `struct BasicTask { status: Status, name: String }`. -/
structure BasicTask : Type where
  status : Status
  name : String
  deriving DecidableEq, Repr

/-- Model of `BasicTask::goto_next_status` as written in `src/main.rs`
(lines 268–275): `Wont→Open`, `Open→Done`, `Done` returns
`Err(AlreadyDone)` without assigning the status. -/
def goto_next_status (t : BasicTask) : Except Error Unit × BasicTask :=
  match t.status with
  | Status.Wont => (Except.ok (), { t with status := Status.Open })
  | Status.Open => (Except.ok (), { t with status := Status.Done })
  | Status.Done => (Except.error Error.AlreadyDone, t)

/-- Model of `BasicTask::goto_next_back_status` as written in `src/main.rs`
(lines 277–284): `Open→Wont`, `Done→Open`, `Wont` returns
`Err(AlreadyWont)` without assigning the status. -/
def goto_next_back_status (t : BasicTask) : Except Error Unit × BasicTask :=
  match t.status with
  | Status.Open => (Except.ok (), { t with status := Status.Wont })
  | Status.Done => (Except.ok (), { t with status := Status.Open })
  | Status.Wont => (Except.error Error.AlreadyWont, t)

namespace Core

/-- Model of `BasicTask::goto_next_status` as written in `src/core/mod.rs`
(lines 76–83); identical to the `main.rs` version. -/
def goto_next_status (t : BasicTask) : Except Error Unit × BasicTask :=
  match t.status with
  | Status.Wont => (Except.ok (), { t with status := Status.Open })
  | Status.Open => (Except.ok (), { t with status := Status.Done })
  | Status.Done => (Except.error Error.AlreadyDone, t)

/-- Model of `BasicTask::goto_next_back_status` as written in `src/core/mod.rs`
(lines 85–92).  Note the `Wont` arm: the source returns
`Err(Error::AlreadyDone)` there, not `AlreadyWont`. -/
def goto_next_back_status (t : BasicTask) : Except Error Unit × BasicTask :=
  match t.status with
  | Status.Open => (Except.ok (), { t with status := Status.Wont })
  | Status.Done => (Except.ok (), { t with status := Status.Open })
  | Status.Wont => (Except.error Error.AlreadyDone, t)

end Core

/-- C1: advance/retreat follow the cycle `Wont→Open→Done` /
`Done→Open→Wont`, failing with `AlreadyDone` at `Done` (advance) and
with `AlreadyWont` at `Wont` (retreat), leaving the status unchanged on
failure.  This holds for the `main.rs` implementation (first three
conjuncts enumerate the whole transition table), but the `core/mod.rs`
implementation returns `AlreadyDone` — not `AlreadyWont` — when
retreating from `Wont` (last conjunct exhibits the bug; the status is
still left unchanged there). -/
theorem C1_status_machine (name : String) :
    (∀ st, goto_next_status ⟨st, name⟩ =
      match st with
      | Status.Wont => (Except.ok (), ⟨Status.Open, name⟩)
      | Status.Open => (Except.ok (), ⟨Status.Done, name⟩)
      | Status.Done => (Except.error Error.AlreadyDone, ⟨Status.Done, name⟩)) ∧
    (∀ st, goto_next_back_status ⟨st, name⟩ =
      match st with
      | Status.Open => (Except.ok (), ⟨Status.Wont, name⟩)
      | Status.Done => (Except.ok (), ⟨Status.Open, name⟩)
      | Status.Wont => (Except.error Error.AlreadyWont, ⟨Status.Wont, name⟩)) ∧
    (∀ st, Core.goto_next_status ⟨st, name⟩ = goto_next_status ⟨st, name⟩) ∧
    (Core.goto_next_back_status ⟨Status.Wont, name⟩ =
        (Except.error Error.AlreadyDone, ⟨Status.Wont, name⟩) ∧
      Error.AlreadyDone ≠ Error.AlreadyWont) := by
  refine ⟨fun st => ?_, fun st => ?_, fun st => ?_, rfl, by simp⟩ <;>
    cases st <;> rfl

/-!
## The `VecMap` model

`vec_map::VecMap<T>` is a map keyed by `usize` whose iterators
(`iter`, `keys`) yield entries in ascending key order.  It is modelled
as an association list `List (Nat × α)` that the operations keep sorted
by key: `vmInsert` is ordered insertion (replacing an existing entry
with the same key, returning nothing of the old value because the
source discards `insert`'s result), `vmRemove` removes the entry with
the given key if present, `vmGet` is lookup.
-/

/-- Ordered insertion into the sorted association list backing a
`VecMap` (`VecMap::insert`; replaces on an equal key). -/
def vmInsert (m : List (Nat × α)) (k : Nat) (v : α) : List (Nat × α) :=
  match m with
  | [] => [(k, v)]
  | (k', v') :: rest =>
    if k < k' then (k, v) :: (k', v') :: rest
    else if k = k' then (k, v) :: rest
    else (k', v') :: vmInsert rest k v

/-- Model of `VecMap::remove`: returns the removed value (if any) and the
remaining map. -/
def vmRemove (m : List (Nat × α)) (k : Nat) : Option α × List (Nat × α) :=
  match m with
  | [] => (none, [])
  | (k', v') :: rest =>
    if k = k' then (some v', rest)
    else
      let (r, rest') := vmRemove rest k
      (r, (k', v') :: rest')

/-- Model of `VecMap` lookup (`get` / the `Index` implementation's partial
lookup). -/
def vmGet (m : List (Nat × α)) (k : Nat) : Option α :=
  match m with
  | [] => none
  | (k', v') :: rest => if k = k' then some v' else vmGet rest k

/-!
## The in-memory store: `FakeTodoList`
-/

/-- Model of `struct FakeTodoList { tasks: VecMap<BasicTask>, next_id: usize }`. -/
structure FakeTodoList : Type where
  tasks : List (Nat × BasicTask)
  next_id : Nat
  deriving DecidableEq, Repr

namespace FakeTodoList

/-- Model of `FakeTodoList::new()`: empty map, `next_id = 0`. -/
def new : FakeTodoList := ⟨[], 0⟩

/-- Model of `FakeTodoList::create` (`src/main.rs` lines 392–403,
`src/core/mod.rs` lines 124–135): takes the current `next_id` as the
new id, increments the counter, and inserts a fresh `Open` task.  The
Rust signature returns `Result` but this implementation is infallible
(always `Ok(id)`), so the model returns the id directly. -/
def create (l : FakeTodoList) (name : String) : Nat × FakeTodoList :=
  let id := l.next_id
  (id, { tasks := vmInsert l.tasks id ⟨Status.Open, name⟩, next_id := id + 1 })

/-- Model of `FakeTodoList::enumerate`: the `VecMap` iterator, i.e. the entries
in ascending key order (every item wrapped in `Ok` by the source; the
wrapper is dropped since it is always `Ok` for this backend). -/
def enumerate (l : FakeTodoList) : List (Nat × BasicTask) := l.tasks

/-- Model of `FakeTodoList::ids`: the keys in ascending order. -/
def ids (l : FakeTodoList) : List Nat := l.tasks.map Prod.fst

/-- Model of `FakeTodoList::remove` (`src/core/mod.rs` lines 143–147):
`self.tasks.remove(id).map_or(Err(Error::NoSuchTask), Ok)`. -/
def remove (l : FakeTodoList) (id : Nat) : Except Error BasicTask × FakeTodoList :=
  match vmRemove l.tasks id with
  | (none, _) => (Except.error Error.NoSuchTask, l)
  | (some t, rest) => (Except.ok t, { l with tasks := rest })

/-- Model of `FakeTodoList::find` (`src/core/mod.rs` lines 149–151):
`Ok(&self.tasks[id])`.  The `VecMap` index operator panics when the key
is absent (outer `none`); when present the result is `Ok(task)` —
the `NoSuchTask` error is never produced. -/
def find (l : FakeTodoList) (id : Nat) : Option (Except Error BasicTask) :=
  (vmGet l.tasks id).map Except.ok

/-- Model of `FakeTodoList::find_mut` (`src/core/mod.rs` lines 153–155):
`Ok(&mut self.tasks[id])` — same panicking index as `find`; the model
returns the task the mutable reference designates. -/
def find_mut (l : FakeTodoList) (id : Nat) : Option (Except Error BasicTask) :=
  (vmGet l.tasks id).map Except.ok

end FakeTodoList

/-!
## The cursor component: `TaskPicker`

`TaskPicker` in the source is generic over the store; the claims about
it concern the in-memory backend, so it is instantiated at
`FakeTodoList` here.  Operations that can panic (through
`find_mut`'s panicking index) return an outer `Option`.
-/

/-- Model of `struct TaskPicker<T> { position: usize, tasks: T }` at
`T = FakeTodoList`. -/
structure TaskPicker : Type where
  position : Nat
  tasks : FakeTodoList
  deriving DecidableEq, Repr

namespace TaskPicker

/-- Model of `TaskPicker::len`: `self.tasks.ids().collect::<Vec<_>>().len()`. -/
def len (p : TaskPicker) : Nat := p.tasks.ids.length

/-- Model of `TaskPicker::top`: `position := 0`, always `Ok`. -/
def top (p : TaskPicker) : Except Error Unit × TaskPicker :=
  (Except.ok (), { p with position := 0 })

/-- Model of `TaskPicker::bottom`: `Err(NoSuchTask)` on an empty store, else
`position := len - 1`. -/
def bottom (p : TaskPicker) : Except Error Unit × TaskPicker :=
  if p.len = 0 then (Except.error Error.NoSuchTask, p)
  else (Except.ok (), { p with position := p.len - 1 })

/-- Model of `TaskPicker::down`: `if len != 0 && len - 1 != position { position += 1 }`,
always `Ok`. -/
def down (p : TaskPicker) : Except Error Unit × TaskPicker :=
  if p.len ≠ 0 ∧ p.len - 1 ≠ p.position then
    (Except.ok (), { p with position := p.position + 1 })
  else (Except.ok (), p)

/-- Model of `TaskPicker::up`: `if position != 0 { position -= 1 }`, always `Ok`. -/
def up (p : TaskPicker) : Except Error Unit × TaskPicker :=
  if p.position ≠ 0 then (Except.ok (), { p with position := p.position - 1 })
  else (Except.ok (), p)

/-- Model of `TaskPicker::current_id`:
`self.tasks.ids().nth(self.position).unwrap_or(Err(Error::NoSuchTask))`. -/
def current_id (p : TaskPicker) : Except Error Nat :=
  match p.tasks.ids.get? p.position with
  | none => Except.error Error.NoSuchTask
  | some id => Except.ok id

/-- Model of `TaskPicker::right`: resolve the current id, then
`find_mut(id)?.goto_next_status()`.  `find_mut` on the in-memory store
panics on an absent id (outer `none`); the mutation through the
returned reference is modelled by writing the transitioned task back
at the same key. -/
def right (p : TaskPicker) : Option (Except Error Unit × TaskPicker) :=
  match p.current_id with
  | Except.error e => some (Except.error e, p)
  | Except.ok id =>
    match vmGet p.tasks.tasks id with
    | none => none
    | some t =>
      let (r, t') := goto_next_status t
      some (r, { p with tasks := { p.tasks with tasks := vmInsert p.tasks.tasks id t' } })

/-- Model of `TaskPicker::left`: as `right`, with `goto_next_back_status`. -/
def left (p : TaskPicker) : Option (Except Error Unit × TaskPicker) :=
  match p.current_id with
  | Except.error e => some (Except.error e, p)
  | Except.ok id =>
    match vmGet p.tasks.tasks id with
    | none => none
    | some t =>
      let (r, t') := goto_next_back_status t
      some (r, { p with tasks := { p.tasks with tasks := vmInsert p.tasks.tasks id t' } })

/-- Model of `TaskPicker::create` (`src/main.rs` lines 194–205): create in the
store, then scan `ids().enumerate()` and move the position to the
(last) rank holding the fresh id, keeping the old position if the scan
finds nothing. -/
def create (p : TaskPicker) (name : String) : Except Error Nat × TaskPicker :=
  let (new_id, tasks') := p.tasks.create name
  let new_position :=
    tasks'.ids.enum.foldl
      (fun acc pi => if pi.2 = new_id then pi.1 else acc) p.position
  (Except.ok new_id, { position := new_position, tasks := tasks' })

/-- Model of `TaskPicker::remove` (`src/main.rs` lines 207–222): resolve the id
at the current position (`Err(NoSuchTask)` when out of range), clamp
the position against the post-removal length, then remove from the
store. -/
def remove (p : TaskPicker) : Except Error Unit × TaskPicker :=
  match p.tasks.ids.get? p.position with
  | none => (Except.error Error.NoSuchTask, p)
  | some id =>
    let new_len := p.len - 1
    let pos' := if p.position ≥ new_len ∧ new_len > 0 then new_len - 1 else p.position
    match FakeTodoList.remove p.tasks id with
    | (Except.error e, l') => (Except.error e, { position := pos', tasks := l' })
    | (Except.ok _, l') => (Except.ok (), { position := pos', tasks := l' })

end TaskPicker

/-- The cursor operations reachable from the UI (§6 commands). -/
inductive Op : Type
  | top
  | bottom
  | up
  | down
  | left
  | right
  | create (name : String)
  | remove
  deriving DecidableEq, Repr

/-- One cursor operation, keeping only the resulting state (`none`
when the operation panics; error results leave their state). -/
def step (p : TaskPicker) : Op → Option TaskPicker
  | Op.top => some p.top.2
  | Op.bottom => some p.bottom.2
  | Op.up => some p.up.2
  | Op.down => some p.down.2
  | Op.left => p.left.map Prod.snd
  | Op.right => p.right.map Prod.snd
  | Op.create name => some (p.create name).2
  | Op.remove => some p.remove.2

/-- A sequence of cursor operations. -/
def runOps (p : TaskPicker) : List Op → Option TaskPicker
  | [] => some p
  | op :: ops =>
    match step p op with
    | none => none
    | some p' => runOps p' ops

/-- The §3 cursor invariant: position `0` on the empty store, in
`[0, len)` otherwise. -/
def ValidPos (p : TaskPicker) : Prop :=
  (p.tasks.tasks = [] → p.position = 0) ∧
    (p.tasks.tasks ≠ [] → p.position < p.tasks.tasks.length)

/-!
## Lemmas about the `VecMap` operations
-/

theorem vmInsert_ne_nil (m : List (Nat × α)) (k : Nat) (v : α) :
    vmInsert m k v ≠ [] := by
  cases m with
  | nil => simp [vmInsert]
  | cons hd tl =>
    obtain ⟨k', v'⟩ := hd
    simp only [vmInsert]
    split
    · simp
    · split <;> simp

theorem length_le_vmInsert (m : List (Nat × α)) (k : Nat) (v : α) :
    m.length ≤ (vmInsert m k v).length := by
  induction m with
  | nil => simp [vmInsert]
  | cons hd tl ih =>
    obtain ⟨k', v'⟩ := hd
    simp only [vmInsert]
    split
    · simp
    · split
      · simp
      · simpa using ih

theorem mem_keys_vmInsert (m : List (Nat × α)) (k : Nat) (v : α) :
    k ∈ (vmInsert m k v).map Prod.fst := by
  induction m with
  | nil => simp [vmInsert]
  | cons hd tl ih =>
    obtain ⟨k', v'⟩ := hd
    simp only [vmInsert]
    split
    · simp
    · split
      · simp
      · simpa using Or.inr ih

theorem vmRemove_found (m : List (Nat × α)) (k : Nat)
    (h : k ∈ m.map Prod.fst) :
    ∃ v rest, vmRemove m k = (some v, rest) ∧ rest.length + 1 = m.length := by
  induction m with
  | nil => simp at h
  | cons hd tl ih =>
    obtain ⟨k', v'⟩ := hd
    by_cases hk : k = k'
    · exact ⟨v', tl, by simp [vmRemove, hk], by simp⟩
    · have htl : k ∈ tl.map Prod.fst := by
        simpa [hk] using h
      obtain ⟨v, rest, hrem, hlen⟩ := ih htl
      exact ⟨v, (k', v') :: rest, by simp [vmRemove, hk, hrem], by simp [hlen]⟩

/-!
## Lemmas about the `create` position scan

The scan `for (p, id) in ids().enumerate() { if id == new_id { new_position = p } }`
is a left fold keeping the last matching index.
-/

theorem foldl_pick_of_no_match (L : List (Nat × Nat)) (x init : Nat)
    (h : ∀ pi ∈ L, pi.2 ≠ x) :
    L.foldl (fun acc pi => if pi.2 = x then pi.1 else acc) init = init := by
  induction L generalizing init with
  | nil => rfl
  | cons hd tl ih =>
    have hhd : hd.2 ≠ x := h hd (by simp)
    simp only [List.foldl_cons, if_neg hhd]
    exact ih init fun pi hpi => h pi (by simp [hpi])

theorem foldl_pick_of_match (L : List (Nat × Nat)) (x init : Nat)
    (h : ∃ pi ∈ L, pi.2 = x) :
    ∃ pi ∈ L, pi.2 = x ∧
      L.foldl (fun acc pi => if pi.2 = x then pi.1 else acc) init = pi.1 := by
  induction L generalizing init with
  | nil => simp at h
  | cons hd tl ih =>
    by_cases htl : ∃ pi ∈ tl, pi.2 = x
    · obtain ⟨pi, hmem, hx, hfold⟩ := ih _ htl
      exact ⟨pi, by simp [hmem], hx, hfold⟩
    · push_neg at htl
      obtain ⟨pi, hmem, hx⟩ := h
      have hhd : hd.2 = x := by
        rcases List.mem_cons.mp hmem with rfl | hmem'
        · exact hx
        · exact absurd hx (htl pi hmem')
      refine ⟨hd, by simp, hhd, ?_⟩
      simp only [List.foldl_cons, if_pos hhd]
      exact foldl_pick_of_no_match tl x hd.1 htl

/-!
## The cursor invariant
-/

theorem TaskPicker.len_eq (p : TaskPicker) : p.len = p.tasks.tasks.length := by
  simp [TaskPicker.len, FakeTodoList.ids]

theorem current_id_ok {p : TaskPicker} {id : Nat}
    (h : p.current_id = Except.ok id) :
    p.tasks.ids.get? p.position = some id := by
  have h' := h
  unfold TaskPicker.current_id at h'
  cases hg : p.tasks.ids.get? p.position with
  | none =>
    rw [hg] at h'
    exact absurd h' (by simp)
  | some a =>
    rw [hg] at h'
    simp only [Except.ok.injEq] at h'
    rw [h']

/-- Every operation of the cursor preserves the §3 position invariant. -/
theorem step_validPos {p p' : TaskPicker} (op : Op) (hv : ValidPos p)
    (h : step p op = some p') : ValidPos p' := by
  cases op with
  | top =>
    simp only [step, TaskPicker.top, Option.some.injEq] at h
    subst h
    exact ⟨fun _ => rfl, fun hne => List.length_pos.mpr hne⟩
  | bottom =>
    by_cases h0 : p.len = 0
    · simp only [step, TaskPicker.bottom, if_pos h0, Option.some.injEq] at h
      subst h; exact hv
    · simp only [step, TaskPicker.bottom, if_neg h0, Option.some.injEq] at h
      subst h
      have hlen := TaskPicker.len_eq p
      exact ⟨fun he => absurd (by rw [hlen, he]; rfl) h0,
        fun _ => by show p.len - 1 < p.tasks.tasks.length; omega⟩
  | down =>
    by_cases hc : p.len ≠ 0 ∧ p.len - 1 ≠ p.position
    · simp only [step, TaskPicker.down, if_pos hc, Option.some.injEq] at h
      subst h
      have hlen := TaskPicker.len_eq p
      have hne : p.tasks.tasks ≠ [] := fun he => hc.1 (by rw [hlen, he]; rfl)
      have hpos := hv.2 hne
      refine ⟨fun he => absurd he hne, fun _ => ?_⟩
      show p.position + 1 < p.tasks.tasks.length
      have h1 := hc.2
      omega
    · simp only [step, TaskPicker.down, if_neg hc, Option.some.injEq] at h
      subst h; exact hv
  | up =>
    by_cases hc : p.position ≠ 0
    · simp only [step, TaskPicker.up, if_pos hc, Option.some.injEq] at h
      subst h
      refine ⟨fun he => absurd (hv.1 he) hc, fun hne => ?_⟩
      have := hv.2 hne
      show p.position - 1 < p.tasks.tasks.length
      omega
    · simp only [step, TaskPicker.up, if_neg hc, Option.some.injEq] at h
      subst h; exact hv
  | left =>
    cases hcid : p.current_id with
    | error e =>
      simp only [step, TaskPicker.left, hcid, Option.map_some', Option.some.injEq] at h
      subst h; exact hv
    | ok id =>
      cases hget : vmGet p.tasks.tasks id with
      | none =>
        simp [step, TaskPicker.left, hcid, hget] at h
      | some t =>
        simp only [step, TaskPicker.left, hcid, hget, Option.map_some',
          Option.some.injEq] at h
        subst h
        have hget? := current_id_ok hcid
        have hlt : p.position < p.tasks.ids.length := (List.get?_eq_some.mp hget?).1
        refine ⟨fun he => absurd he (vmInsert_ne_nil _ _ _), fun _ => ?_⟩
        show p.position <
          (vmInsert p.tasks.tasks id (goto_next_back_status t).2).length
        have hlen : p.tasks.ids.length = p.tasks.tasks.length := by
          simp [FakeTodoList.ids]
        have := length_le_vmInsert p.tasks.tasks id (goto_next_back_status t).2
        omega
  | right =>
    cases hcid : p.current_id with
    | error e =>
      simp only [step, TaskPicker.right, hcid, Option.map_some', Option.some.injEq] at h
      subst h; exact hv
    | ok id =>
      cases hget : vmGet p.tasks.tasks id with
      | none =>
        simp [step, TaskPicker.right, hcid, hget] at h
      | some t =>
        simp only [step, TaskPicker.right, hcid, hget, Option.map_some',
          Option.some.injEq] at h
        subst h
        have hget? := current_id_ok hcid
        have hlt : p.position < p.tasks.ids.length := (List.get?_eq_some.mp hget?).1
        refine ⟨fun he => absurd he (vmInsert_ne_nil _ _ _), fun _ => ?_⟩
        show p.position <
          (vmInsert p.tasks.tasks id (goto_next_status t).2).length
        have hlen : p.tasks.ids.length = p.tasks.tasks.length := by
          simp [FakeTodoList.ids]
        have := length_le_vmInsert p.tasks.tasks id (goto_next_status t).2
        omega
  | create name =>
    simp only [step, TaskPicker.create, FakeTodoList.create, Option.some.injEq] at h
    subst h
    refine ⟨fun he => absurd he (vmInsert_ne_nil _ _ _), fun _ => ?_⟩
    have hmem : p.tasks.next_id ∈
        (vmInsert p.tasks.tasks p.tasks.next_id ⟨Status.Open, name⟩).map Prod.fst :=
      mem_keys_vmInsert _ _ _
    obtain ⟨i, hi⟩ := List.get?_of_mem hmem
    have henum : (i, p.tasks.next_id) ∈
        ((vmInsert p.tasks.tasks p.tasks.next_id ⟨Status.Open, name⟩).map Prod.fst).enum := by
      rw [List.mk_mem_enum_iff_getElem?, ← List.get?_eq_getElem?]
      exact hi
    obtain ⟨pi, hpimem, hpix, hfold⟩ :=
      foldl_pick_of_match _ p.tasks.next_id p.position ⟨_, henum, rfl⟩
    have hpi : pi.1 < ((vmInsert p.tasks.tasks p.tasks.next_id ⟨Status.Open, name⟩).map
        Prod.fst).length := by
      have := List.mem_enum_iff_get?.mp hpimem
      exact (List.get?_eq_some.mp this).1
    simp only [FakeTodoList.ids] at hfold ⊢
    rw [hfold]
    simpa using hpi
  | remove =>
    simp only [step, TaskPicker.remove] at h
    cases hg : p.tasks.ids.get? p.position with
    | none => rw [hg] at h; simp only [Option.some.injEq] at h; subst h; exact hv
    | some id =>
      rw [hg] at h
      have hidmem : id ∈ p.tasks.ids := List.get?_mem hg
      have hidkeys : id ∈ p.tasks.tasks.map Prod.fst := by
        simpa [FakeTodoList.ids] using hidmem
      obtain ⟨v, rest, hrem, hrlen⟩ := vmRemove_found _ _ hidkeys
      have hrm : FakeTodoList.remove p.tasks id =
          (Except.ok v, ⟨rest, p.tasks.next_id⟩) := by
        simp [FakeTodoList.remove, hrem]
      simp only [hrm, Option.some.injEq] at h
      subst h
      have hne : p.tasks.tasks ≠ [] := by
        intro he; rw [he] at hidkeys; simp at hidkeys
      have hpos := hv.2 hne
      have hlen := TaskPicker.len_eq p
      constructor
      · intro he
        have he' : rest = [] := he
        have h0 : rest.length = 0 := by rw [he']; rfl
        show (if p.position ≥ p.len - 1 ∧ p.len - 1 > 0 then p.len - 1 - 1
          else p.position) = 0
        split <;> omega
      · intro hne'
        have hne'' : rest ≠ [] := hne'
        have h0 : 0 < rest.length := List.length_pos.mpr hne''
        show (if p.position ≥ p.len - 1 ∧ p.len - 1 > 0 then p.len - 1 - 1
          else p.position) < rest.length
        split <;> omega

theorem runOps_validPos {p p' : TaskPicker} (ops : List Op) (hv : ValidPos p)
    (h : runOps p ops = some p') : ValidPos p' := by
  induction ops generalizing p with
  | nil => simp only [runOps, Option.some.injEq] at h; subst h; exact hv
  | cons op ops ih =>
    simp only [runOps] at h
    cases hs : step p op with
    | none => rw [hs] at h; simp at h
    | some q => rw [hs] at h; exact ih (step_validPos op hv hs) h

theorem movement_empty_noop (p : TaskPicker) (he : p.tasks.tasks = [])
    (h0 : p.position = 0) :
    ∀ m ∈ [Op.top, Op.bottom, Op.up, Op.down],
      (step p m).map TaskPicker.position = some p.position := by
  have hlen : p.len = 0 := by rw [TaskPicker.len_eq, he]; rfl
  intro m hm
  simp only [List.mem_cons, List.not_mem_nil, or_false] at hm
  rcases hm with rfl | rfl | rfl | rfl
  · simp [step, TaskPicker.top, h0]
  · simp [step, TaskPicker.bottom, hlen]
  · simp [step, TaskPicker.up, h0]
  · simp [step, TaskPicker.down, hlen]

/-- C2: starting from position `0` over any in-memory store, every
sequence of cursor operations that runs without panicking keeps the
position strictly below the store's length whenever the store is
non-empty; whenever the store is empty the position is `0` and the four
movement operations leave it unchanged. -/
theorem C2_cursor_position_invariant (l : FakeTodoList) (ops : List Op)
    (p' : TaskPicker) (h : runOps ⟨0, l⟩ ops = some p') :
    (p'.tasks.tasks ≠ [] → p'.position < p'.tasks.tasks.length) ∧
    (p'.tasks.tasks = [] → p'.position = 0 ∧
      ∀ m ∈ [Op.top, Op.bottom, Op.up, Op.down],
        (step p' m).map TaskPicker.position = some p'.position) := by
  have hv0 : ValidPos (⟨0, l⟩ : TaskPicker) :=
    ⟨fun _ => rfl, fun hne => List.length_pos.mpr hne⟩
  have hv := runOps_validPos ops hv0 h
  refine ⟨hv.2, fun he => ⟨hv.1 he, movement_empty_noop p' he (hv.1 he)⟩⟩

/-- Witness for C2 at a concrete run: after creating one task the
cursor sits strictly inside the store's range. -/
theorem C2_cursor_position_invariant_witness :
    (⟨0, ⟨[(0, ⟨Status.Open, "a"⟩)], 1⟩⟩ : TaskPicker).position <
      (⟨0, ⟨[(0, ⟨Status.Open, "a"⟩)], 1⟩⟩ : TaskPicker).tasks.tasks.length :=
  (C2_cursor_position_invariant FakeTodoList.new [Op.create "a"]
    ⟨0, ⟨[(0, ⟨Status.Open, "a"⟩)], 1⟩⟩ (by decide)).1 (by decide)

/-- With strictly sorted keys, removing the key found at rank `i`
erases exactly the entry at index `i`. -/
theorem vmRemove_snd_eq_eraseIdx (m : List (Nat × α)) (i : Nat) (k : Nat)
    (hp : List.Pairwise (· < ·) (m.map Prod.fst))
    (hk : (m.map Prod.fst).get? i = some k) :
    (vmRemove m k).2 = m.eraseIdx i := by
  induction m generalizing i with
  | nil => simp at hk
  | cons hd tl ih =>
    obtain ⟨k1, v1⟩ := hd
    rw [List.map_cons] at hp hk
    cases i with
    | zero =>
      simp only [List.get?] at hk
      have hk1 : k1 = k := by simpa using hk
      simp [vmRemove, hk1.symm]
    | succ n =>
      simp only [List.get?] at hk
      have hkmem : k ∈ tl.map Prod.fst := List.get?_mem hk
      have hlt : k1 < k := (List.pairwise_cons.mp hp).1 k hkmem
      have hne : k ≠ k1 := fun he => absurd (he ▸ hlt) (lt_irrefl k)
      have htl := ih n (List.pairwise_cons.mp hp).2 hk
      simp only [vmRemove, if_neg hne, List.eraseIdx_cons_succ]
      rw [← htl]

/-- C8: cursor `remove()` on a store whose enumeration holds a task at
the current position: it resolves that identifier, removes exactly the
entry at the current rank from the store, and clamps the position — to
the new last rank when the removed task was at the last rank and the
list stays non-empty, and to `0` (with `down()` and `up()` then leaving
it at `0`) when the list becomes empty. -/
theorem C8_cursor_remove (p : TaskPicker) (id : Nat)
    (hsort : List.Pairwise (· < ·) p.tasks.ids)
    (hid : p.tasks.ids.get? p.position = some id) :
    ∃ p'', TaskPicker.remove p = (Except.ok (), p'') ∧
      p''.tasks.tasks = p.tasks.tasks.eraseIdx p.position ∧
      p''.tasks.next_id = p.tasks.next_id ∧
      (p.position = p.len - 1 → p''.tasks.tasks ≠ [] →
        p''.position = p''.tasks.tasks.length - 1) ∧
      (p''.tasks.tasks = [] → p''.position = 0 ∧
        (TaskPicker.down p'').2.position = 0 ∧
        (TaskPicker.up p'').2.position = 0) := by
  have hidkeys : id ∈ p.tasks.tasks.map Prod.fst := by
    simpa [FakeTodoList.ids] using List.get?_mem hid
  obtain ⟨v, rest, hrem, hrlen⟩ := vmRemove_found p.tasks.tasks id hidkeys
  have herase : rest = p.tasks.tasks.eraseIdx p.position := by
    have := vmRemove_snd_eq_eraseIdx p.tasks.tasks p.position id
      (by simpa [FakeTodoList.ids] using hsort) (by simpa [FakeTodoList.ids] using hid)
    rw [hrem] at this
    exact this
  have hrm : FakeTodoList.remove p.tasks id =
      (Except.ok v, ⟨rest, p.tasks.next_id⟩) := by
    simp [FakeTodoList.remove, hrem]
  have hlen : p.len = p.tasks.tasks.length := TaskPicker.len_eq p
  have hposlt : p.position < p.tasks.tasks.length := by
    have := (List.get?_eq_some.mp hid).1
    simpa [FakeTodoList.ids] using this
  refine ⟨⟨if p.position ≥ p.len - 1 ∧ p.len - 1 > 0 then p.len - 1 - 1
    else p.position, ⟨rest, p.tasks.next_id⟩⟩, ?_, herase, rfl, ?_, ?_⟩
  · simp only [TaskPicker.remove, hid, hrm]
  · intro hlast hne
    have hne' : rest ≠ [] := hne
    have h0 : 0 < rest.length := List.length_pos.mpr hne'
    show (if p.position ≥ p.len - 1 ∧ p.len - 1 > 0 then p.len - 1 - 1
      else p.position) = rest.length - 1
    split <;> omega
  · intro he
    have he' : rest = [] := he
    subst he'
    have hr0 : ([] : List (Nat × BasicTask)).length = 0 := rfl
    have h1 : p.tasks.tasks.length = 1 := by omega
    have hpos0 : p.position = 0 := by omega
    have hcond : ¬ (p.position ≥ p.len - 1 ∧ p.len - 1 > 0) := by omega
    refine ⟨by show (if _ then _ else _) = 0; rw [if_neg hcond]; exact hpos0, ?_, ?_⟩
    · show (TaskPicker.down ⟨_, ⟨[], p.tasks.next_id⟩⟩).2.position = 0
      rw [if_neg hcond]
      simp [TaskPicker.down, TaskPicker.len, FakeTodoList.ids, hpos0]
    · show (TaskPicker.up ⟨_, ⟨[], p.tasks.next_id⟩⟩).2.position = 0
      rw [if_neg hcond]
      simp [TaskPicker.up, hpos0]

/-- Witness for C8: a one-task store with the cursor on it; removal
empties the store and resets the position. -/
theorem C8_cursor_remove_witness :
    ∃ p'', TaskPicker.remove ⟨0, ⟨[(1, ⟨Status.Open, "a"⟩)], 2⟩⟩ =
        (Except.ok (), p'') ∧
      p''.tasks.tasks =
        ((⟨0, ⟨[(1, ⟨Status.Open, "a"⟩)], 2⟩⟩ : TaskPicker)).tasks.tasks.eraseIdx 0 ∧
      p''.tasks.next_id = 2 ∧
      ((0 : Nat) = (⟨0, ⟨[(1, ⟨Status.Open, "a"⟩)], 2⟩⟩ : TaskPicker).len - 1 →
        p''.tasks.tasks ≠ [] → p''.position = p''.tasks.tasks.length - 1) ∧
      (p''.tasks.tasks = [] → p''.position = 0 ∧
        (TaskPicker.down p'').2.position = 0 ∧
        (TaskPicker.up p'').2.position = 0) :=
  C8_cursor_remove ⟨0, ⟨[(1, ⟨Status.Open, "a"⟩)], 2⟩⟩ 1 (by decide) (by decide)

/-!
## The file-backed store: `FileTodoList`

The data directory `./.ado/` is modelled as an association list
`Fs = List (Nat × String)` from identifier to file content.  On disk a
file is named by the zero-padded 5-digit decimal of its id
(`format!("{}/{:05}", PATH, id)`) and the startup scan parses file
names back with `str::parse::<usize>`, which inverts the padding for
every id, so file names are identified with their ids here.  File
names in a directory are unique, which the operations below preserve
(`fsWrite` replaces, `fsRemove` deletes the entry).  I/O primitives
never fail in the model except where the file is absent
(`File::open` / `fs::remove_file` on a missing file), which is the
only I/O failure the claims mention.
-/

abbrev Fs := List (Nat × String)

/-- Model of `File::create` + `write!`: truncate/replace the file's content, or
create the file. -/
def fsWrite (fs : Fs) (id : Nat) (c : String) : Fs :=
  match fs with
  | [] => [(id, c)]
  | (k, v) :: rest => if k = id then (k, c) :: rest else (k, v) :: fsWrite rest id c

/-- Model of `fs::remove_file`: `none` (an `Err(io)`) when the file is absent,
otherwise the directory without that file. -/
def fsRemove (fs : Fs) (id : Nat) : Option Fs :=
  match vmRemove fs id with
  | (none, _) => none
  | (some _, rest) => some rest

/-- The free function `ids()` (`src/main.rs` lines 646–659): collect
the ids named by the directory entries and sort them ascending. -/
def fsIds (fs : Fs) : List Nat := (fs.map Prod.fst).insertionSort (· ≤ ·)

/-- Model of `{:?}` (the `Debug` derive) on `Status`. -/
def statusDebug : Status → String
  | Status.Open => "Open"
  | Status.Done => "Done"
  | Status.Wont => "Wont"

/-- Model of `impl From<&str> for Status`: panics (`none`) on any string other
than the three tags. -/
def statusFromStr (s : String) : Option Status :=
  if s = "Open" then some Status.Open
  else if s = "Done" then some Status.Done
  else if s = "Wont" then some Status.Wont
  else none

/-- Split a character list at every `'\n'` (the separators are not part
of any piece; always at least one piece). -/
def splitNl : List Char → List (List Char)
  | [] => [[]]
  | c :: cs =>
    if c = '\n' then [] :: splitNl cs
    else
      match splitNl cs with
      | [] => [[c]]
      | l :: ls => (c :: l) :: ls

/-- Strip one trailing `'\r'`, as `str::lines` does to every line that
was terminated by a `'\n'` (the `\r\n` line ending). -/
def stripCr (l : List Char) : List Char :=
  if l.getLast? = some '\r' then l.dropLast else l

/-- Rust's `str::lines` on the character level.  `lines` iterates the
`'\n'`-terminated segments; every segment that ends in `'\n'` has that
`'\n'` and then one `'\r'` (if present) stripped, while a final
segment with no `'\n'` terminator is yielded verbatim and a final
empty segment (from a trailing `'\n'`, or an empty string) yields no
line.  Here `splitNl` already removed the `'\n'` separators, so: strip
one `'\r'` from every piece but the last, and keep the last piece
verbatim unless it is empty. -/
def rustLinesL (cs : List Char) : List (List Char) :=
  ((splitNl cs).dropLast.map stripCr) ++
    (if (splitNl cs).getLast? = some [] then []
     else ((splitNl cs).getLast?).toList)

/-- Model of `content.lines().collect::<Vec<_>>()`. -/
def rustLines (s : String) : List String :=
  (rustLinesL s.data).map (fun l => String.mk l)

/-- Model of `struct FileTask { file_name: String, inner: BasicTask }`; the
`file_name` is represented by the id it encodes (see the `Fs`
comment). -/
structure FileTask : Type where
  file_name : Nat
  inner : BasicTask
  deriving DecidableEq, Repr

/-- Model of `FileTask::save`: write `"{name}\n{status:?}"` to the task's
file. -/
def FileTask.save (t : FileTask) (fs : Fs) : Fs :=
  fsWrite fs t.file_name (t.inner.name ++ "\n" ++ statusDebug t.inner.status)

/-- Model of `struct FileTodoList { next_id: usize, cache: HashMap<usize, FileTask> }`;
the `HashMap` is an association list with unique keys (lookup order is
irrelevant for a map with unique keys). -/
structure FileTodoList : Type where
  next_id : Nat
  cache : List (Nat × FileTask)
  deriving DecidableEq, Repr

namespace FileTodoList

/-- Model of `FileTodoList::load` (`src/main.rs` lines 537–556): open the file
(`Err(io)` if absent, propagated), read it, `assert_eq!(2, lines.len())`
(panic — outer `none` — otherwise), and parse line 2 as a status
(panic on an unrecognised tag). -/
def load (fs : Fs) (id : Nat) : Option (Except Error FileTask) :=
  match vmGet fs id with
  | none => some (Except.error Error.Io)
  | some content =>
    match rustLines content with
    | [l0, l1] =>
      match statusFromStr l1 with
      | none => none
      | some st => some (Except.ok ⟨id, ⟨st, l0⟩⟩)
    | _ => none

/-- The loop body of `FileTodoList::load_all`: load every id into the
cache, panicking (`none`) if an id is inserted twice. -/
def load_all_go (fs : Fs) : List Nat → List (Nat × FileTask) →
    Option (Except Error (List (Nat × FileTask)))
  | [], cache => some (Except.ok cache)
  | id :: rest, cache =>
    match load fs id with
    | none => none
    | some (Except.error e) => some (Except.error e)
    | some (Except.ok task) =>
      match vmGet cache id with
      | some _ => none
      | none => load_all_go fs rest ((id, task) :: cache)

/-- Model of `FileTodoList::new` (`src/main.rs` lines 506–519): `next_id` is one
greater than the maximum id found on disk (`ids()?.max().unwrap_or(0) + 1`),
then every file is loaded eagerly. -/
def new (fs : Fs) : Option (Except Error FileTodoList) :=
  let nid := (fsIds fs).foldr Nat.max 0 + 1
  match load_all_go fs (fsIds fs) [] with
  | none => none
  | some (Except.error e) => some (Except.error e)
  | some (Except.ok cache) => some (Except.ok ⟨nid, cache⟩)

/-- Model of `FileTodoList::create` (`src/main.rs` lines 567–583): take and bump
`next_id`, save a fresh `Open` task to its file, insert it into the
cache (panicking if the id was already cached). -/
def create (l : FileTodoList) (fs : Fs) (name : String) :
    Option (Except Error Nat × FileTodoList × Fs) :=
  let id := l.next_id
  let new_task : FileTask := ⟨id, ⟨Status.Open, name⟩⟩
  let fs' := FileTask.save new_task fs
  match vmGet l.cache id with
  | some _ => none
  | none => some (Except.ok id, ⟨id + 1, (id, new_task) :: l.cache⟩, fs')

/-- Model of `FileTodoList::remove` (`src/main.rs` lines 604–611): load the task
from its file (so it can be returned by value), delete the file, and
return the loaded task.  The cache is not touched. -/
def remove (l : FileTodoList) (fs : Fs) (id : Nat) :
    Option (Except Error FileTask × FileTodoList × Fs) :=
  match load fs id with
  | none => none
  | some (Except.error e) => some (Except.error e, l, fs)
  | some (Except.ok task) =>
    match fsRemove fs id with
    | none => some (Except.error Error.Io, l, fs)
    | some fs' => some (Except.ok task, l, fs')

/-- Model of `FileTodoList::find` (`src/main.rs` lines 613–615):
`Ok(&self.cache[&id])` — the `HashMap` index panics on an absent key. -/
def find (l : FileTodoList) (id : Nat) : Option (Except Error FileTask) :=
  (vmGet l.cache id).map Except.ok

/-- Model of `FileTodoList::find_mut` (`src/main.rs` lines 617–622): a proper
lookup, `Err(NoSuchTask)` on an absent key. -/
def find_mut (l : FileTodoList) (id : Nat) : Except Error FileTask :=
  match vmGet l.cache id with
  | none => Except.error Error.NoSuchTask
  | some task => Except.ok task

end FileTodoList

/-!
## Association-list lemmas shared by the store claims
-/

theorem vmRemove_of_get_none (m : List (Nat × α)) (k : Nat)
    (h : vmGet m k = none) : vmRemove m k = (none, m) := by
  induction m with
  | nil => rfl
  | cons hd tl ih =>
    obtain ⟨k', v'⟩ := hd
    simp only [vmGet] at h
    by_cases hk : k = k'
    · rw [if_pos hk] at h; cases h
    · rw [if_neg hk] at h
      simp [vmRemove, hk, ih h]

theorem vmRemove_fst_of_get (m : List (Nat × α)) (k : Nat) (v : α)
    (h : vmGet m k = some v) : (vmRemove m k).1 = some v := by
  induction m with
  | nil => cases h
  | cons hd tl ih =>
    obtain ⟨k', v'⟩ := hd
    simp only [vmGet] at h
    by_cases hk : k = k'
    · rw [if_pos hk] at h
      simp only [Option.some.injEq] at h
      simp [vmRemove, hk, h]
    · rw [if_neg hk] at h
      simp [vmRemove, hk, ih h]

theorem vmGet_vmRemove_self (m : List (Nat × α)) (k : Nat)
    (hnd : (m.map Prod.fst).Nodup) : vmGet (vmRemove m k).2 k = none := by
  induction m with
  | nil => rfl
  | cons hd tl ih =>
    obtain ⟨k', v'⟩ := hd
    rw [List.map_cons, List.nodup_cons] at hnd
    by_cases hk : k = k'
    · subst hk
      simp only [vmRemove, if_pos rfl]
      cases hg : vmGet tl k with
      | none => exact hg
      | some w =>
        exfalso
        apply hnd.1
        clear ih hnd
        induction tl with
        | nil => cases hg
        | cons hd2 tl2 ih2 =>
          obtain ⟨k2, v2⟩ := hd2
          simp only [vmGet] at hg
          by_cases hk2 : k = k2
          · subst hk2; simp
          · rw [if_neg hk2] at hg
            simp only [List.map_cons, List.mem_cons]
            exact Or.inr (ih2 hg)
    · simp only [vmRemove, if_neg hk]
      have := ih hnd.2
      cases hr : vmRemove tl k with
      | mk r rest =>
        rw [hr] at this
        simp [vmGet, hk, this]

theorem vmGet_vmRemove_other (m : List (Nat × α)) (k k' : Nat) (hne : k' ≠ k) :
    vmGet (vmRemove m k).2 k' = vmGet m k' := by
  induction m with
  | nil => rfl
  | cons hd tl ih =>
    obtain ⟨k1, v1⟩ := hd
    by_cases hk : k = k1
    · subst hk
      simp [vmRemove, vmGet, fun h => hne h]
    · cases hr : vmRemove tl k with
      | mk r rest =>
        rw [hr] at ih
        simp only [vmRemove, if_neg hk, hr]
        simp [vmGet, ih]

theorem vmGet_fsWrite_self (fs : Fs) (id : Nat) (c : String) :
    vmGet (fsWrite fs id c) id = some c := by
  induction fs with
  | nil => simp [fsWrite, vmGet]
  | cons hd tl ih =>
    obtain ⟨k, v⟩ := hd
    by_cases hk : k = id
    · subst hk; simp [fsWrite, vmGet]
    · have hk' : ¬ id = k := fun h => hk h.symm
      simp [fsWrite, vmGet, hk, hk', ih]

theorem fsRemove_of_get (fs : Fs) (id : Nat) (c : String)
    (h : vmGet fs id = some c) :
    fsRemove fs id = some (vmRemove fs id).2 := by
  have := vmRemove_fst_of_get fs id c h
  unfold fsRemove
  cases hr : vmRemove fs id with
  | mk r rest =>
    rw [hr] at this
    simp only at this
    rw [this]

/-!
## Claims C3, C4, C5, C7
-/

/-- C3 counterexample: `FakeTodoList::find` on an absent id panics via
the `VecMap` index (modelled `none`); it does not produce the
`NoSuchTask` error the claim requires. -/
theorem C3_counterexample :
    FakeTodoList.find ⟨[], 0⟩ 0 = none ∧
    FakeTodoList.find ⟨[], 0⟩ 0 ≠ some (Except.error Error.NoSuchTask) ∧
    FakeTodoList.find_mut ⟨[], 0⟩ 0 ≠ some (Except.error Error.NoSuchTask) ∧
    FileTodoList.find ⟨0, []⟩ 0 ≠ some (Except.error Error.NoSuchTask) := by
  refine ⟨rfl, ?_, ?_, ?_⟩ <;> intro h <;> cases h

/-- C3 amended: on an absent id, `FakeTodoList::find`/`find_mut` and
`FileTodoList::find` panic through an indexing operator (`none`) and
only `FileTodoList::find_mut` fails with `NoSuchTask`; on a present id
all four return the stored task. -/
theorem C3_find_lookup (l : FakeTodoList) (fl : FileTodoList) (id : Nat)
    (t : BasicTask) (ft : FileTask) :
    (vmGet l.tasks id = none →
      l.find id = none ∧ l.find_mut id = none) ∧
    (vmGet l.tasks id = some t →
      l.find id = some (Except.ok t) ∧ l.find_mut id = some (Except.ok t)) ∧
    (vmGet fl.cache id = none →
      fl.find id = none ∧ fl.find_mut id = Except.error Error.NoSuchTask) ∧
    (vmGet fl.cache id = some ft →
      fl.find id = some (Except.ok ft) ∧ fl.find_mut id = Except.ok ft) := by
  refine ⟨fun h => ?_, fun h => ?_, fun h => ?_, fun h => ?_⟩ <;>
    simp [FakeTodoList.find, FakeTodoList.find_mut, FileTodoList.find,
      FileTodoList.find_mut, h]

/-- Witness for C3 on concrete stores: one lookup of each kind. -/
theorem C3_find_lookup_witness :
    (FakeTodoList.find ⟨[], 5⟩ 0 = none ∧
      FakeTodoList.find_mut ⟨[], 5⟩ 0 = none) ∧
    (FakeTodoList.find ⟨[(0, ⟨Status.Open, "a"⟩)], 1⟩ 0 =
        some (Except.ok ⟨Status.Open, "a"⟩) ∧
      FakeTodoList.find_mut ⟨[(0, ⟨Status.Open, "a"⟩)], 1⟩ 0 =
        some (Except.ok ⟨Status.Open, "a"⟩)) ∧
    (FileTodoList.find ⟨1, []⟩ 0 = none ∧
      FileTodoList.find_mut ⟨1, []⟩ 0 = Except.error Error.NoSuchTask) ∧
    (FileTodoList.find ⟨2, [(1, ⟨1, ⟨Status.Done, "b"⟩⟩)]⟩ 1 =
        some (Except.ok ⟨1, ⟨Status.Done, "b"⟩⟩) ∧
      FileTodoList.find_mut ⟨2, [(1, ⟨1, ⟨Status.Done, "b"⟩⟩)]⟩ 1 =
        Except.ok ⟨1, ⟨Status.Done, "b"⟩⟩) :=
  ⟨(C3_find_lookup ⟨[], 5⟩ ⟨1, []⟩ 0 ⟨Status.Open, "a"⟩ ⟨1, ⟨Status.Done, "b"⟩⟩).1 rfl,
    (C3_find_lookup ⟨[(0, ⟨Status.Open, "a"⟩)], 1⟩ ⟨1, []⟩ 0 ⟨Status.Open, "a"⟩
      ⟨1, ⟨Status.Done, "b"⟩⟩).2.1 rfl,
    (C3_find_lookup ⟨[], 5⟩ ⟨1, []⟩ 0 ⟨Status.Open, "a"⟩
      ⟨1, ⟨Status.Done, "b"⟩⟩).2.2.1 rfl,
    (C3_find_lookup ⟨[], 5⟩ ⟨2, [(1, ⟨1, ⟨Status.Done, "b"⟩⟩)]⟩ 1 ⟨Status.Open, "a"⟩
      ⟨1, ⟨Status.Done, "b"⟩⟩).2.2.2 rfl⟩

/-- C4 counterexample: removing an id with no backing file from the
file-backed store fails with an I/O error (`File::open` fails in
`load`), not with `NoSuchTask` as the claim states. -/
theorem C4_counterexample :
    FileTodoList.remove ⟨1, []⟩ [] 1 = some (Except.error Error.Io, ⟨1, []⟩, []) ∧
    Error.Io ≠ Error.NoSuchTask := by
  exact ⟨rfl, fun h => by cases h⟩

/-- C4 amended: for the in-memory store, `remove` fails with
`NoSuchTask` on an absent id leaving the store unchanged, and on a
present id deletes exactly that entry and returns its task; for the
file-backed store an absent backing file makes `remove` fail with an
I/O error (not `NoSuchTask`) leaving everything unchanged, while on a
loadable backing file it deletes the file and returns the task parsed
from it. -/
theorem C4_remove_behaviour (l : FakeTodoList) (fl : FileTodoList) (fs : Fs)
    (id : Nat) (t : BasicTask) :
    (vmGet l.tasks id = none →
      FakeTodoList.remove l id = (Except.error Error.NoSuchTask, l)) ∧
    ((l.tasks.map Prod.fst).Nodup → vmGet l.tasks id = some t →
      ∃ l', FakeTodoList.remove l id = (Except.ok t, l') ∧
        vmGet l'.tasks id = none ∧
        (∀ k, k ≠ id → vmGet l'.tasks k = vmGet l.tasks k) ∧
        l'.next_id = l.next_id) ∧
    (vmGet fs id = none →
      FileTodoList.remove fl fs id = some (Except.error Error.Io, fl, fs)) ∧
    (∀ task, (fs.map Prod.fst).Nodup →
      FileTodoList.load fs id = some (Except.ok task) →
      ∃ fs', FileTodoList.remove fl fs id = some (Except.ok task, fl, fs') ∧
        vmGet fs' id = none ∧ ∀ k, k ≠ id → vmGet fs' k = vmGet fs k) := by
  refine ⟨fun h => ?_, fun hnd h => ?_, fun h => ?_, fun task hnd h => ?_⟩
  · simp [FakeTodoList.remove, vmRemove_of_get_none l.tasks id h]
  · have hfst := vmRemove_fst_of_get l.tasks id t h
    cases hr : vmRemove l.tasks id with
    | mk r rest =>
      rw [hr] at hfst
      simp only at hfst
      subst hfst
      refine ⟨⟨rest, l.next_id⟩, by simp [FakeTodoList.remove, hr], ?_, ?_, rfl⟩
      · have := vmGet_vmRemove_self l.tasks id hnd
        rw [hr] at this
        exact this
      · intro k hk
        have := vmGet_vmRemove_other l.tasks id k hk
        rw [hr] at this
        exact this
  · simp [FileTodoList.remove, FileTodoList.load, h]
  · have hcontent : ∃ c, vmGet fs id = some c := by
      revert h
      unfold FileTodoList.load
      cases hg : vmGet fs id with
      | none => intro h; cases h
      | some c => intro _; exact ⟨c, rfl⟩
    obtain ⟨c, hc⟩ := hcontent
    have hfsr := fsRemove_of_get fs id c hc
    refine ⟨(vmRemove fs id).2, ?_, ?_, ?_⟩
    · simp [FileTodoList.remove, h, hfsr]
    · exact vmGet_vmRemove_self fs id hnd
    · intro k hk
      exact vmGet_vmRemove_other fs id k hk

/-- Witness for C4 on concrete stores. -/
theorem C4_remove_behaviour_witness :
    FakeTodoList.remove ⟨[], 3⟩ 0 = (Except.error Error.NoSuchTask, ⟨[], 3⟩) ∧
    (∃ l', FakeTodoList.remove ⟨[(2, ⟨Status.Wont, "w"⟩)], 3⟩ 2 =
        (Except.ok ⟨Status.Wont, "w"⟩, l') ∧
      vmGet l'.tasks 2 = none ∧
      (∀ k, k ≠ 2 → vmGet l'.tasks k =
        vmGet (⟨[(2, ⟨Status.Wont, "w"⟩)], 3⟩ : FakeTodoList).tasks k) ∧
      l'.next_id = 3) ∧
    (∃ fs', FileTodoList.remove ⟨2, []⟩ [(1, "w\nWont")] 1 =
        some (Except.ok ⟨1, ⟨Status.Wont, "w"⟩⟩, ⟨2, []⟩, fs') ∧
      vmGet fs' 1 = none ∧
      ∀ k, k ≠ 1 → vmGet fs' k = vmGet [(1, "w\nWont")] k) :=
  ⟨(C4_remove_behaviour ⟨[], 3⟩ ⟨2, []⟩ [] 0 ⟨Status.Wont, "w"⟩).1 rfl,
    (C4_remove_behaviour ⟨[(2, ⟨Status.Wont, "w"⟩)], 3⟩ ⟨2, []⟩ [] 2
      ⟨Status.Wont, "w"⟩).2.1 (by decide) rfl,
    (C4_remove_behaviour ⟨[], 3⟩ ⟨2, []⟩ [(1, "w\nWont")] 1
      ⟨Status.Wont, "w"⟩).2.2.2 ⟨1, ⟨Status.Wont, "w"⟩⟩ (by decide) rfl⟩

/-- C5 counterexample: a successful `remove` on the file-backed store
deletes the backing file but leaves the cache entry in place — the
claim's "the entry for id is evicted from the cache" is false. -/
theorem C5_counterexample :
    FileTodoList.remove ⟨2, [(1, ⟨1, ⟨Status.Open, "A"⟩⟩)]⟩ [(1, "A\nOpen")] 1 =
      some (Except.ok ⟨1, ⟨Status.Open, "A"⟩⟩,
        ⟨2, [(1, ⟨1, ⟨Status.Open, "A"⟩⟩)]⟩, []) ∧
    vmGet (⟨2, [(1, ⟨1, ⟨Status.Open, "A"⟩⟩)]⟩ : FileTodoList).cache 1 =
      some ⟨1, ⟨Status.Open, "A"⟩⟩ := by
  exact ⟨rfl, rfl⟩

/-- C5 amended: after a successful `create(name)` the returned id is
cached and its backing file holds the task's serialized content; after
a successful `remove(id)` the backing file is gone but the cache is
left entirely unchanged (the entry for `id` is not evicted). -/
theorem C5_cache_fs_lockstep (l l' : FileTodoList) (fs fs' : Fs)
    (name : String) (id : Nat) :
    (FileTodoList.create l fs name = some (Except.ok id, l', fs') →
      vmGet l'.cache id = some ⟨id, ⟨Status.Open, name⟩⟩ ∧
      vmGet fs' id = some (name ++ "\n" ++ statusDebug Status.Open)) ∧
    (∀ task, (fs.map Prod.fst).Nodup →
      FileTodoList.remove l fs id = some (Except.ok task, l', fs') →
      vmGet fs' id = none ∧ l' = l) := by
  constructor
  · intro h
    cases hc : vmGet l.cache l.next_id with
    | some w => simp [FileTodoList.create, hc] at h
    | none =>
      simp only [FileTodoList.create, hc, Option.some.injEq, Prod.mk.injEq,
        Except.ok.injEq] at h
      obtain ⟨hid, hl', hfs'⟩ := h
      subst hid
      subst hl'
      subst hfs'
      refine ⟨by simp [vmGet], ?_⟩
      exact vmGet_fsWrite_self fs l.next_id _
  · intro task hnd h
    cases hload : FileTodoList.load fs id with
    | none => simp [FileTodoList.remove, hload] at h
    | some r =>
      cases r with
      | error e => simp [FileTodoList.remove, hload] at h
      | ok task0 =>
        cases hrem : fsRemove fs id with
        | none => simp [FileTodoList.remove, hload, hrem] at h
        | some fs'' =>
          simp only [FileTodoList.remove, hload, hrem, Option.some.injEq,
            Prod.mk.injEq, Except.ok.injEq] at h
          obtain ⟨-, hl, hfs⟩ := h
          subst hl
          subst hfs
          refine ⟨?_, rfl⟩
          have : fs'' = (vmRemove fs id).2 := by
            revert hrem
            unfold fsRemove
            cases hr : vmRemove fs id with
            | mk a rest =>
              cases a with
              | none => intro hrem; cases hrem
              | some w =>
                intro hrem
                simp only [Option.some.injEq] at hrem
                simp [hrem]
          rw [this]
          exact vmGet_vmRemove_self fs id hnd

/-- Witness for C5: a create and a remove on concrete states. -/
theorem C5_cache_fs_lockstep_witness :
    (vmGet (⟨2, [(1, ⟨1, ⟨Status.Open, "n"⟩⟩)]⟩ : FileTodoList).cache 1 =
        some ⟨1, ⟨Status.Open, "n"⟩⟩ ∧
      vmGet [(1, "n\nOpen")] 1 = some ("n" ++ "\n" ++ statusDebug Status.Open)) ∧
    (vmGet ([] : Fs) 1 = none ∧
      (⟨2, [(1, ⟨1, ⟨Status.Open, "n"⟩⟩)]⟩ : FileTodoList) =
        ⟨2, [(1, ⟨1, ⟨Status.Open, "n"⟩⟩)]⟩) :=
  ⟨(C5_cache_fs_lockstep ⟨1, []⟩ ⟨2, [(1, ⟨1, ⟨Status.Open, "n"⟩⟩)]⟩ []
      [(1, "n\nOpen")] "n" 1).1 rfl,
    (C5_cache_fs_lockstep ⟨2, [(1, ⟨1, ⟨Status.Open, "n"⟩⟩)]⟩
      ⟨2, [(1, ⟨1, ⟨Status.Open, "n"⟩⟩)]⟩ [(1, "n\nOpen")] [] "n" 1).2
      ⟨1, ⟨Status.Open, "n"⟩⟩ (by decide) rfl⟩

/-- C7: creating `"Buy milk"` in a fresh file-backed store writes file
`1` with content `"Buy milk\nOpen"`; constructing a new store over that
directory loads a task with the same name, `Open` status and the same
identifier — save/load round-trips. -/
theorem C7_file_roundtrip :
    FileTodoList.new [] = some (Except.ok ⟨1, []⟩) ∧
    FileTodoList.create ⟨1, []⟩ [] "Buy milk" =
      some (Except.ok 1, ⟨2, [(1, ⟨1, ⟨Status.Open, "Buy milk"⟩⟩)]⟩,
        [(1, "Buy milk\nOpen")]) ∧
    FileTodoList.new [(1, "Buy milk\nOpen")] =
      some (Except.ok ⟨2, [(1, ⟨1, ⟨Status.Open, "Buy milk"⟩⟩)]⟩) ∧
    FileTodoList.find ⟨2, [(1, ⟨1, ⟨Status.Open, "Buy milk"⟩⟩)]⟩ 1 =
      some (Except.ok ⟨1, ⟨Status.Open, "Buy milk"⟩⟩) := by
  refine ⟨rfl, rfl, rfl, rfl⟩

/-!
## Claim C6: identifier monotonicity
-/

/-- The store-level mutations a client can perform over a store's
lifetime. -/
inductive FOp : Type
  | create (name : String)
  | remove (id : Nat)
  deriving DecidableEq, Repr

/-- Run a sequence of store operations on the in-memory store,
collecting every identifier returned by `create` in order. -/
def runFake : FakeTodoList → List FOp → FakeTodoList × List Nat
  | l, [] => (l, [])
  | l, FOp.create n :: ops =>
    let r := l.create n
    let rr := runFake r.2 ops
    (rr.1, r.1 :: rr.2)
  | l, FOp.remove i :: ops => runFake (FakeTodoList.remove l i).2 ops

theorem remove_next_id (l : FakeTodoList) (i : Nat) :
    (FakeTodoList.remove l i).2.next_id = l.next_id := by
  unfold FakeTodoList.remove
  cases hr : vmRemove l.tasks i with
  | mk r rest => cases r <;> rfl

/-- Issued ids are strictly increasing and bounded below by the
starting `next_id`. -/
theorem runFake_issued (ops : List FOp) (l : FakeTodoList) :
    List.Pairwise (· < ·) (runFake l ops).2 ∧
    ∀ i ∈ (runFake l ops).2, l.next_id ≤ i := by
  induction ops generalizing l with
  | nil => exact ⟨List.Pairwise.nil, by simp [runFake]⟩
  | cons op ops ih =>
    cases op with
    | create n =>
      obtain ⟨hpw, hbd⟩ := ih (l.create n).2
      have hnid : (l.create n).2.next_id = l.next_id + 1 := rfl
      rw [hnid] at hbd
      refine ⟨List.pairwise_cons.mpr ⟨fun b hb => ?_, hpw⟩, ?_⟩
      · have := hbd b hb
        show l.next_id < b
        omega
      · intro i hi
        simp only [runFake, List.mem_cons] at hi
        rcases hi with rfl | hi
        · exact Nat.le_refl _
        · exact Nat.le_of_succ_le (hbd i hi)
    | remove j =>
      obtain ⟨hpw, hbd⟩ := ih (FakeTodoList.remove l j).2
      rw [remove_next_id] at hbd
      exact ⟨hpw, hbd⟩

theorem vmInsert_append (m : List (Nat × α)) (k : Nat) (v : α)
    (h : ∀ k' ∈ m.map Prod.fst, k' < k) :
    vmInsert m k v = m ++ [(k, v)] := by
  induction m with
  | nil => rfl
  | cons hd tl ih =>
    obtain ⟨k1, v1⟩ := hd
    have hk1 : k1 < k := h k1 (by simp)
    have h1 : ¬ k < k1 := by omega
    have h2 : ¬ k = k1 := by omega
    simp only [vmInsert, if_neg h1, if_neg h2, List.cons_append, List.cons.injEq,
      true_and]
    exact ih fun k' hk' => h k' (by simp [hk'])

theorem vmRemove_snd_sublist (m : List (Nat × α)) (k : Nat) :
    (vmRemove m k).2.Sublist m := by
  induction m with
  | nil => exact List.Sublist.refl _
  | cons hd tl ih =>
    obtain ⟨k1, v1⟩ := hd
    by_cases hk : k = k1
    · simp only [vmRemove, if_pos hk]
      exact List.sublist_cons_self _ _
    · cases hr : vmRemove tl k with
      | mk r rest =>
        rw [hr] at ih
        simp only [vmRemove, if_neg hk, hr]
        exact List.Sublist.cons₂ _ ih

/-- The in-memory store invariant: keys strictly ascending, all below
`next_id`. -/
def FakeInv (l : FakeTodoList) : Prop :=
  List.Pairwise (· < ·) (l.tasks.map Prod.fst) ∧
    ∀ k ∈ l.tasks.map Prod.fst, k < l.next_id

theorem fakeInv_create (l : FakeTodoList) (n : String) (hinv : FakeInv l) :
    FakeInv (l.create n).2 ∧
    (l.create n).2.tasks = l.tasks ++ [(l.next_id, ⟨Status.Open, n⟩)] := by
  have happ := vmInsert_append l.tasks l.next_id ⟨Status.Open, n⟩ hinv.2
  have htasks : (l.create n).2.tasks = l.tasks ++ [(l.next_id, ⟨Status.Open, n⟩)] := by
    show vmInsert l.tasks l.next_id ⟨Status.Open, n⟩ = _
    exact happ
  refine ⟨⟨?_, ?_⟩, htasks⟩
  · rw [htasks, List.map_append]
    rw [List.pairwise_append]
    refine ⟨hinv.1, by simp, ?_⟩
    intro a ha b hb
    simp only [List.map_cons, List.map_nil, List.mem_singleton] at hb
    subst hb
    exact hinv.2 a ha
  · rw [htasks, List.map_append]
    intro k hk
    have hnid : (l.create n).2.next_id = l.next_id + 1 := rfl
    rw [hnid]
    rcases List.mem_append.mp hk with hk | hk
    · exact Nat.lt_succ_of_lt (hinv.2 k hk)
    · simp only [List.map_cons, List.map_nil, List.mem_singleton] at hk
      omega

theorem fakeInv_remove (l : FakeTodoList) (i : Nat) (hinv : FakeInv l) :
    FakeInv (FakeTodoList.remove l i).2 ∧
    ((FakeTodoList.remove l i).2.tasks.map Prod.fst).Sublist
      (l.tasks.map Prod.fst) := by
  have hsub : (FakeTodoList.remove l i).2.tasks.Sublist l.tasks := by
    unfold FakeTodoList.remove
    cases hr : vmRemove l.tasks i with
    | mk r rest =>
      have := vmRemove_snd_sublist l.tasks i
      rw [hr] at this
      cases r
      · exact List.Sublist.refl _
      · exact this
  have hmap := List.Sublist.map Prod.fst hsub
  refine ⟨⟨List.Pairwise.sublist hmap hinv.1, ?_⟩, hmap⟩
  intro k hk
  rw [remove_next_id]
  exact hinv.2 k (hmap.mem hk)

/-- Over any trace, the invariant is preserved and the surviving keys
form a subsequence of the issued-id list (hence ascending id order is
creation order). -/
theorem runFake_keys (ops : List FOp) (l : FakeTodoList) (hinv : FakeInv l) :
    FakeInv (runFake l ops).1 ∧
    ((runFake l ops).1.tasks.map Prod.fst).Sublist
      (l.tasks.map Prod.fst ++ (runFake l ops).2) := by
  induction ops generalizing l with
  | nil =>
    refine ⟨hinv, ?_⟩
    show (l.tasks.map Prod.fst).Sublist (l.tasks.map Prod.fst ++ [])
    rw [List.append_nil]
  | cons op ops ih =>
    cases op with
    | create n =>
      obtain ⟨hinv', htasks⟩ := fakeInv_create l n hinv
      obtain ⟨hinvf, hsubf⟩ := ih (l.create n).2 hinv'
      refine ⟨hinvf, ?_⟩
      show ((runFake (l.create n).2 ops).1.tasks.map Prod.fst).Sublist
        (l.tasks.map Prod.fst ++ ((l.create n).1 :: (runFake (l.create n).2 ops).2))
      have hfst : (l.create n).1 = l.next_id := rfl
      rw [htasks, List.map_append] at hsubf
      rw [hfst]
      simpa [List.append_assoc] using hsubf
    | remove j =>
      obtain ⟨hinv', hsub'⟩ := fakeInv_remove l j hinv
      obtain ⟨hinvf, hsubf⟩ := ih (FakeTodoList.remove l j).2 hinv'
      refine ⟨hinvf, ?_⟩
      exact hsubf.trans (List.Sublist.append hsub' (List.Sublist.refl _))

theorem le_foldr_max (L : List Nat) (k : Nat) (h : k ∈ L) :
    k ≤ L.foldr Nat.max 0 := by
  induction L with
  | nil => cases h
  | cons hd tl ih =>
    rcases List.mem_cons.mp h with rfl | h
    · exact Nat.le_max_left _ _
    · exact (ih h).trans (Nat.le_max_right _ _)

/-- Model of `FileTodoList::enumerate`'s loop body: pair each id from
the directory scan with its cached task; `&self.cache[&id]` panics
(`none`) on a cache miss. -/
def enumGo (cache : List (Nat × FileTask)) :
    List Nat → Option (List (Nat × FileTask))
  | [] => some []
  | id :: rest =>
    match vmGet cache id with
    | none => none
    | some t => (enumGo cache rest).map (fun es => (id, t) :: es)

/-- Model of `FileTodoList::enumerate` (`src/main.rs` lines 585–595):
the sorted directory ids, each paired with its cached task. -/
def FileTodoList.enumerate (l : FileTodoList) (fs : Fs) :
    Option (List (Nat × FileTask)) :=
  enumGo l.cache (fsIds fs)

/-- Run a sequence of store operations on the file-backed store,
collecting the ids returned by successful creates in order; `none`
when an operation panics. -/
def runFile : FileTodoList → Fs → List FOp → Option (FileTodoList × Fs × List Nat)
  | l, fs, [] => some (l, fs, [])
  | l, fs, FOp.create n :: ops =>
    match FileTodoList.create l fs n with
    | none => none
    | some (Except.error _, l', fs') => runFile l' fs' ops
    | some (Except.ok id, l', fs') =>
      match runFile l' fs' ops with
      | none => none
      | some (lf, fsf, issued) => some (lf, fsf, id :: issued)
  | l, fs, FOp.remove i :: ops =>
    match FileTodoList.remove l fs i with
    | none => none
    | some (_, l', fs') => runFile l' fs' ops

theorem file_create_eq (l : FileTodoList) (fs : Fs) (n : String)
    (hc : vmGet l.cache l.next_id = none) :
    FileTodoList.create l fs n =
      some (Except.ok l.next_id,
        ⟨l.next_id + 1, (l.next_id, ⟨l.next_id, ⟨Status.Open, n⟩⟩) :: l.cache⟩,
        FileTask.save ⟨l.next_id, ⟨Status.Open, n⟩⟩ fs) := by
  simp [FileTodoList.create, hc]

/-- Model of `FileTodoList::remove` never mutates the store value (the
cache and the counter are untouched on every path). -/
theorem file_remove_state (l : FileTodoList) (fs : Fs) (i : Nat)
    (x : Except Error FileTask) (l' : FileTodoList) (fs' : Fs)
    (h : FileTodoList.remove l fs i = some (x, l', fs')) : l' = l := by
  revert h
  unfold FileTodoList.remove
  cases FileTodoList.load fs i with
  | none => intro h; cases h
  | some r =>
    cases r with
    | error e =>
      intro h
      simp only [Option.some.injEq, Prod.mk.injEq] at h
      exact h.2.1.symm
    | ok task =>
      cases fsRemove fs i with
      | none =>
        intro h
        simp only [Option.some.injEq, Prod.mk.injEq] at h
        exact h.2.1.symm
      | some fs2 =>
        intro h
        simp only [Option.some.injEq, Prod.mk.injEq] at h
        exact h.2.1.symm

/-- Ids issued by the file-backed store over one lifetime are strictly
increasing and at least the starting `next_id`. -/
theorem runFile_issued (ops : List FOp) :
    ∀ (l : FileTodoList) (fs : Fs) (r : FileTodoList × Fs × List Nat),
      runFile l fs ops = some r →
      List.Pairwise (· < ·) r.2.2 ∧ ∀ i ∈ r.2.2, l.next_id ≤ i := by
  induction ops with
  | nil =>
    intro l fs r h
    simp only [runFile, Option.some.injEq] at h
    subst h
    exact ⟨List.Pairwise.nil, by simp⟩
  | cons op ops ih =>
    intro l fs r h
    cases op with
    | create n =>
      cases hc : vmGet l.cache l.next_id with
      | some w =>
        have hnone : FileTodoList.create l fs n = none := by
          simp [FileTodoList.create, hc]
        simp only [runFile, hnone] at h
        cases h
      | none =>
        simp only [runFile, file_create_eq l fs n hc] at h
        cases hr : runFile ⟨l.next_id + 1,
            (l.next_id, ⟨l.next_id, ⟨Status.Open, n⟩⟩) :: l.cache⟩
            (FileTask.save ⟨l.next_id, ⟨Status.Open, n⟩⟩ fs) ops with
        | none => rw [hr] at h; cases h
        | some r2 =>
          obtain ⟨lf, fsf, issued⟩ := r2
          rw [hr] at h
          simp only [Option.some.injEq] at h
          subst h
          obtain ⟨hpw, hbd⟩ := ih _ _ _ hr
          have hn2 : (⟨l.next_id + 1,
              (l.next_id, ⟨l.next_id, ⟨Status.Open, n⟩⟩) :: l.cache⟩ :
              FileTodoList).next_id = l.next_id + 1 := rfl
          simp only [hn2] at hbd
          refine ⟨List.pairwise_cons.mpr ⟨fun b hb => ?_, hpw⟩, ?_⟩
          · have := hbd b hb
            show l.next_id < b
            omega
          · intro i hi
            rcases List.mem_cons.mp hi with rfl | hi
            · exact Nat.le_refl _
            · exact Nat.le_of_succ_le (hbd i hi)
    | remove j =>
      cases hrm : FileTodoList.remove l fs j with
      | none =>
        simp only [runFile, hrm] at h
        cases h
      | some t3 =>
        obtain ⟨x, l', fs'⟩ := t3
        simp only [runFile, hrm] at h
        have hl := file_remove_state l fs j x l' fs' hrm
        subst hl
        exact ih _ _ _ h

theorem enumGo_fst (cache : List (Nat × FileTask)) (L : List Nat)
    (es : List (Nat × FileTask)) (h : enumGo cache L = some es) :
    es.map Prod.fst = L := by
  induction L generalizing es with
  | nil =>
    simp only [enumGo, Option.some.injEq] at h
    subst h
    rfl
  | cons id rest ih =>
    simp only [enumGo] at h
    cases hg : vmGet cache id with
    | none => rw [hg] at h; cases h
    | some t =>
      rw [hg] at h
      cases hr : enumGo cache rest with
      | none => rw [hr] at h; cases h
      | some es' =>
        rw [hr] at h
        simp only [Option.map_some', Option.some.injEq] at h
        subst h
        simp [ih es' hr]

/-- The sorted directory scan is strictly ascending when the directory
has no duplicate file names. -/
theorem fsIds_pairwise (fs : Fs) (hnd : (fs.map Prod.fst).Nodup) :
    List.Pairwise (· < ·) (fsIds fs) := by
  have hs : List.Pairwise (· ≤ ·) (fsIds fs) :=
    List.sorted_insertionSort (· ≤ ·) (fs.map Prod.fst)
  have hnd' : (fsIds fs).Nodup :=
    ((List.perm_insertionSort (· ≤ ·) (fs.map Prod.fst)).nodup_iff).mpr hnd
  exact (hs.and hnd').imp fun h => lt_of_le_of_ne h.1 h.2

/-- C6 counterexample: cross-restart identifier reuse.  First
lifetime: create `"a"` (id 1), create `"b"` (id 2), remove id 2 (file
`00002` deleted).  Restart over the surviving directory: the scan
finds only id 1, so `next_id = 2`, and the next create returns id 2
again — not strictly greater than the previously-issued id 2. -/
theorem C6_counterexample :
    FileTodoList.new [] = some (Except.ok ⟨1, []⟩) ∧
    FileTodoList.create ⟨1, []⟩ [] "a" =
      some (Except.ok 1, ⟨2, [(1, ⟨1, ⟨Status.Open, "a"⟩⟩)]⟩, [(1, "a\nOpen")]) ∧
    FileTodoList.create ⟨2, [(1, ⟨1, ⟨Status.Open, "a"⟩⟩)]⟩ [(1, "a\nOpen")] "b" =
      some (Except.ok 2,
        ⟨3, [(2, ⟨2, ⟨Status.Open, "b"⟩⟩), (1, ⟨1, ⟨Status.Open, "a"⟩⟩)]⟩,
        [(1, "a\nOpen"), (2, "b\nOpen")]) ∧
    FileTodoList.remove
        ⟨3, [(2, ⟨2, ⟨Status.Open, "b"⟩⟩), (1, ⟨1, ⟨Status.Open, "a"⟩⟩)]⟩
        [(1, "a\nOpen"), (2, "b\nOpen")] 2 =
      some (Except.ok ⟨2, ⟨Status.Open, "b"⟩⟩,
        ⟨3, [(2, ⟨2, ⟨Status.Open, "b"⟩⟩), (1, ⟨1, ⟨Status.Open, "a"⟩⟩)]⟩,
        [(1, "a\nOpen")]) ∧
    FileTodoList.new [(1, "a\nOpen")] =
      some (Except.ok ⟨2, [(1, ⟨1, ⟨Status.Open, "a"⟩⟩)]⟩) ∧
    FileTodoList.create ⟨2, [(1, ⟨1, ⟨Status.Open, "a"⟩⟩)]⟩ [(1, "a\nOpen")] "c" =
      some (Except.ok 2,
        ⟨3, [(2, ⟨2, ⟨Status.Open, "c"⟩⟩), (1, ⟨1, ⟨Status.Open, "a"⟩⟩)]⟩,
        [(1, "a\nOpen"), (2, "c\nOpen")]) ∧
    ¬ (2 : Nat) > (2 : Nat) := by
  refine ⟨rfl, rfl, rfl, rfl, rfl, rfl, by decide⟩

/-- C6 amended: within one store lifetime, every id returned by
`create` is strictly greater than every id issued before it — proved
for the in-memory store over any trace and for the file-backed store
over any trace (create returns the current `next_id` and bumps it;
`remove` never changes the counter).  Enumeration is in strictly
ascending id order: for the in-memory store the surviving ids are
moreover a subsequence of the issuing (creation) order, and for the
file-backed store `enumerate` pairs the sorted directory scan with the
cache, so its ids are the sorted scan and strictly ascend whenever the
directory has no duplicate names.  Across restarts the guarantee is
weaker than the original claim: the `next_id` chosen at construction
is one greater than the maximum id found on disk (`1` for an empty
directory), so it exceeds every id still on disk — but an id issued
and removed above the on-disk maximum can be reissued after a restart
(see the counterexample). -/
theorem C6_id_allocation (ops : List FOp) (fs : Fs) (l' : FileTodoList)
    (fl : FileTodoList) (fs0 : Fs)
    (h : FileTodoList.new fs = some (Except.ok l')) :
    List.Pairwise (· < ·) (runFake FakeTodoList.new ops).2 ∧
    List.Pairwise (· < ·)
      ((runFake FakeTodoList.new ops).1.enumerate.map Prod.fst) ∧
    ((runFake FakeTodoList.new ops).1.enumerate.map Prod.fst).Sublist
      (runFake FakeTodoList.new ops).2 ∧
    (∀ r, runFile fl fs0 ops = some r →
      List.Pairwise (· < ·) r.2.2 ∧ ∀ i ∈ r.2.2, fl.next_id ≤ i) ∧
    ((fs0.map Prod.fst).Nodup → ∀ es, FileTodoList.enumerate fl fs0 = some es →
      es.map Prod.fst = fsIds fs0 ∧ List.Pairwise (· < ·) (es.map Prod.fst)) ∧
    l'.next_id = (fsIds fs).foldr Nat.max 0 + 1 ∧
    (fs = [] → l'.next_id = 1) ∧
    (∀ k ∈ fs.map Prod.fst, k < l'.next_id) := by
  have hinv0 : FakeInv FakeTodoList.new :=
    ⟨List.Pairwise.nil, by simp [FakeTodoList.new]⟩
  obtain ⟨hinvf, hsubf⟩ := runFake_keys ops FakeTodoList.new hinv0
  have hnid : l'.next_id = (fsIds fs).foldr Nat.max 0 + 1 := by
    revert h
    unfold FileTodoList.new
    cases hgo : FileTodoList.load_all_go fs (fsIds fs) [] with
    | none => intro h; cases h
    | some r =>
      cases r with
      | error e => intro h; cases h
      | ok cache =>
        intro h
        simp only [Option.some.injEq, Except.ok.injEq] at h
        rw [← h]
  refine ⟨(runFake_issued ops FakeTodoList.new).1, hinvf.1, ?_,
    fun r hr => runFile_issued ops fl fs0 r hr, fun hnd es hes => ?_, hnid, ?_, ?_⟩
  · simpa [FakeTodoList.new, FakeTodoList.enumerate] using hsubf
  · have hfst := enumGo_fst fl.cache (fsIds fs0) es hes
    exact ⟨hfst, hfst ▸ fsIds_pairwise fs0 hnd⟩
  · intro hfs
    rw [hnid, hfs]
    rfl
  · intro k hk
    rw [hnid]
    have hmem : k ∈ fsIds fs := by
      unfold fsIds
      exact (List.perm_insertionSort (· ≤ ·) (fs.map Prod.fst)).mem_iff.mpr hk
    have := le_foldr_max (fsIds fs) k hmem
    omega

/-- Witness for C6: a create–remove–create trace, a one-file directory
for the construction clauses, and a concrete file store for the
lifetime clauses. -/
theorem C6_id_allocation_witness :
    List.Pairwise (· < ·)
      (runFake FakeTodoList.new [FOp.create "a", FOp.remove 0, FOp.create "b"]).2 ∧
    List.Pairwise (· < ·)
      ((runFake FakeTodoList.new
        [FOp.create "a", FOp.remove 0, FOp.create "b"]).1.enumerate.map Prod.fst) ∧
    ((runFake FakeTodoList.new
        [FOp.create "a", FOp.remove 0, FOp.create "b"]).1.enumerate.map
          Prod.fst).Sublist
      (runFake FakeTodoList.new [FOp.create "a", FOp.remove 0, FOp.create "b"]).2 ∧
    (∀ r, runFile ⟨2, [(1, ⟨1, ⟨Status.Open, "a"⟩⟩)]⟩ [(1, "a\nOpen")]
        [FOp.create "a", FOp.remove 0, FOp.create "b"] = some r →
      List.Pairwise (· < ·) r.2.2 ∧ ∀ i ∈ r.2.2,
        (⟨2, [(1, ⟨1, ⟨Status.Open, "a"⟩⟩)]⟩ : FileTodoList).next_id ≤ i) ∧
    ((([(1, "a\nOpen")] : Fs).map Prod.fst).Nodup → ∀ es,
      FileTodoList.enumerate ⟨2, [(1, ⟨1, ⟨Status.Open, "a"⟩⟩)]⟩
        [(1, "a\nOpen")] = some es →
      es.map Prod.fst = fsIds [(1, "a\nOpen")] ∧
        List.Pairwise (· < ·) (es.map Prod.fst)) ∧
    (⟨4, [(3, ⟨3, ⟨Status.Open, "A"⟩⟩)]⟩ : FileTodoList).next_id =
      (fsIds [(3, "A\nOpen")]).foldr Nat.max 0 + 1 ∧
    ([(3, "A\nOpen")] = ([] : Fs) →
      (⟨4, [(3, ⟨3, ⟨Status.Open, "A"⟩⟩)]⟩ : FileTodoList).next_id = 1) ∧
    (∀ k ∈ ([(3, "A\nOpen")] : Fs).map Prod.fst,
      k < (⟨4, [(3, ⟨3, ⟨Status.Open, "A"⟩⟩)]⟩ : FileTodoList).next_id) :=
  C6_id_allocation [FOp.create "a", FOp.remove 0, FOp.create "b"]
    [(3, "A\nOpen")] ⟨4, [(3, ⟨3, ⟨Status.Open, "A"⟩⟩)]⟩
    ⟨2, [(1, ⟨1, ⟨Status.Open, "a"⟩⟩)]⟩ [(1, "a\nOpen")] rfl

/-!
## Claim C9: the display projection
-/

/-- Model of `impl Display for Status` (`src/main.rs` lines 309–317): the three
fixed-width status markers. -/
def Status.display : Status → String
  | Status.Open => "     [ ]      "
  | Status.Done => "           [x]"
  | Status.Wont => "----          "

/-- Model of `impl Display for BasicTask` (`src/main.rs` lines 380–385):
`"{status} {name}"`. -/
def BasicTask.display (t : BasicTask) : String :=
  Status.display t.status ++ " " ++ t.name

/-- One line of `impl Display for TaskPicker`:
`format!("{} {}", marker, task.projection())` where `marker` is `">"`
for the selected task and `" "` otherwise. -/
def taskLine (selected : Bool) (t : BasicTask) : String :=
  (if selected then ">" else " ") ++ " " ++ BasicTask.display t

/-- Model of `impl Display for TaskPicker` (`src/main.rs` lines 225–243): the
legend header, a newline, then the per-task lines joined with `"\n"`;
the selected task is the one whose id is at the cursor position (id
`0` when the position is out of range). -/
def TaskPicker.display (p : TaskPicker) : String :=
  let current_id := (p.tasks.ids.get? p.position).getD 0
  "  Wont Open Done\n" ++
    String.intercalate "\n"
      (p.tasks.enumerate.map (fun it => taskLine (it.1 == current_id) it.2))

theorem taskLine_eq (sel : Bool) (st : Status) (name : String) :
    taskLine sel ⟨st, name⟩ =
      ((if sel then ">" else " ") ++ " " ++ Status.display st ++ " ") ++ name := by
  cases sel <;> cases st <;>
    simp [taskLine, BasicTask.display, String.append_assoc]

/-- C9 counterexample: the rendered line puts the selection marker
first — it does not begin with the status marker, so the claimed order
(status marker, then selection marker, then name) is false already for
a selected `Open` task named `"x"`. -/
theorem C9_counterexample :
    taskLine true ⟨Status.Open, "x"⟩ = ">      [ ]       x" ∧
    (taskLine true ⟨Status.Open, "x"⟩).data.take 14 ≠ "     [ ]      ".data := by
  exact ⟨by decide, by decide⟩

/-- C9 amended: each rendered line is the one-character selection
marker (`>` when selected, space otherwise), a space, the fixed-width
status marker (`Open → "     [ ]      "`, `Done → "           [x]"`,
`Wont → "----          "`), a space, and the task name — selection
marker first, not after the status marker; the full listing prepends
the legend header `"  Wont Open Done"` and a newline before the joined
per-task lines, marking selected exactly the line whose id sits at the
cursor position. -/
theorem C9_render (name : String) (p : TaskPicker) :
    taskLine true ⟨Status.Open, name⟩ = ">      [ ]       " ++ name ∧
    taskLine false ⟨Status.Open, name⟩ = "       [ ]       " ++ name ∧
    taskLine true ⟨Status.Done, name⟩ = ">            [x] " ++ name ∧
    taskLine false ⟨Status.Done, name⟩ = "             [x] " ++ name ∧
    taskLine true ⟨Status.Wont, name⟩ = "> ----           " ++ name ∧
    taskLine false ⟨Status.Wont, name⟩ = "  ----           " ++ name ∧
    TaskPicker.display p =
      "  Wont Open Done\n" ++
        String.intercalate "\n"
          (p.tasks.enumerate.map
            (fun it => taskLine (it.1 == (p.tasks.ids.get? p.position).getD 0) it.2)) := by
  refine ⟨?_, ?_, ?_, ?_, ?_, ?_, rfl⟩ <;>
    (rw [taskLine_eq]; exact congrArg (fun s => s ++ name) (by decide))

/-!
## Claim C10: the two-line on-disk format
-/

theorem splitNl_no_newline (cs : List Char) (h : '\n' ∉ cs) :
    splitNl cs = [cs] := by
  induction cs with
  | nil => rfl
  | cons c cs ih =>
    have hc : ¬ c = '\n' := fun he => h (by simp [he])
    have hrec := ih fun hm => h (by simp [hm])
    simp only [splitNl, if_neg hc, hrec]

theorem splitNl_append_no_newline (xs ys : List Char) (hx : '\n' ∉ xs)
    (hy : '\n' ∉ ys) : splitNl (xs ++ '\n' :: ys) = [xs, ys] := by
  induction xs with
  | nil =>
    simp [splitNl, splitNl_no_newline ys hy]
  | cons c xs ih =>
    have hc : ¬ c = '\n' := fun he => hx (by simp [he])
    have hrec := ih fun hm => hx (by simp [hm])
    simp [splitNl, hc, hrec]

theorem splitNl_append_last (xs ys : List Char) (hy : '\n' ∉ ys) :
    ∃ ls, splitNl (xs ++ '\n' :: ys) = ls ++ [ys] ∧
      ls.length = xs.count '\n' + 1 := by
  induction xs with
  | nil =>
    exact ⟨[[]], by simp [splitNl, splitNl_no_newline ys hy], by simp⟩
  | cons c xs ih =>
    obtain ⟨ls, hsp, hlen⟩ := ih
    by_cases hc : c = '\n'
    · subst hc
      refine ⟨[] :: ls, ?_, ?_⟩
      · simp [splitNl, hsp]
      · simp only [List.length_cons, hlen, List.count_cons]
        simp
    · cases ls with
      | nil => simp at hlen
      | cons l ls2 =>
        refine ⟨(c :: l) :: ls2, ?_, ?_⟩
        · simp [splitNl, hc, hsp]
        · simp only [List.length_cons] at hlen ⊢
          rw [hlen, List.count_cons]
          simp [hc]

theorem load_of_two_lines (fs : Fs) (id : Nat) (c : String) (l0 l1 : String)
    (st : Status) (hget : vmGet fs id = some c) (hr : rustLines c = [l0, l1])
    (hst : statusFromStr l1 = some st) :
    FileTodoList.load fs id = some (Except.ok ⟨id, ⟨st, l0⟩⟩) := by
  unfold FileTodoList.load
  simp only [hget, hr, hst]

theorem load_of_lines_ne_two (fs : Fs) (id : Nat) (c : String)
    (hget : vmGet fs id = some c) (hlen : (rustLines c).length ≠ 2) :
    FileTodoList.load fs id = none := by
  unfold FileTodoList.load
  simp only [hget]
  cases hr : rustLines c with
  | nil => rfl
  | cons a tl =>
    cases tl with
    | nil => rfl
    | cons b tl2 =>
      cases tl2 with
      | nil => exact absurd (by rw [hr]; rfl) hlen
      | cons c2 tl3 => rfl

/-- C10: `FileTask::save` followed by `FileTodoList::load` of the same
id parses back without error whenever the name contains no newline —
the loaded task has the same status and the saved name with one
trailing `'\r'` stripped, if any, since the name's terminating `'\n'`
makes a final `'\r'` part of a `\r\n` line ending for `str::lines`
(for any name not ending in `'\r'` this is the name itself); a name
containing a newline still saves, but every subsequent load of that
file panics on the exactly-two-lines assertion (`none`).  (No `create`
checks for newlines in names.) -/
theorem C10_save_load (name : String) (st : Status) (fs : Fs) (id : Nat) :
    ('\n' ∉ name.data →
      FileTodoList.load (FileTask.save ⟨id, ⟨st, name⟩⟩ fs) id =
        some (Except.ok ⟨id, ⟨st, String.mk (stripCr name.data)⟩⟩)) ∧
    ('\n' ∈ name.data →
      FileTodoList.load (FileTask.save ⟨id, ⟨st, name⟩⟩ fs) id = none) := by
  have hget : vmGet (FileTask.save ⟨id, ⟨st, name⟩⟩ fs) id =
      some (name ++ "\n" ++ statusDebug st) :=
    vmGet_fsWrite_self fs id _
  have hnld : ("\n" : String).data = ['\n'] := rfl
  have hdata : (name ++ "\n" ++ statusDebug st).data =
      name.data ++ '\n' :: (statusDebug st).data := by
    simp [String.data_append, hnld]
  have hstnl : '\n' ∉ (statusDebug st).data := by cases st <;> decide
  have hstne : (statusDebug st).data ≠ [] := by cases st <;> decide
  have hstparse : statusFromStr (statusDebug st) = some st := by
    cases st <;> rfl
  constructor
  · intro hnl
    have hsplit := splitNl_append_no_newline name.data (statusDebug st).data
      hnl hstnl
    have hlines : rustLines (name ++ "\n" ++ statusDebug st) =
        [String.mk (stripCr name.data), statusDebug st] := by
      unfold rustLines rustLinesL
      rw [hdata, hsplit]
      have hgl : ([name.data, (statusDebug st).data] :
          List (List Char)).getLast? = some (statusDebug st).data := rfl
      rw [hgl, if_neg (by simp [hstne])]
      rfl
    exact load_of_two_lines _ id _ (String.mk (stripCr name.data))
      (statusDebug st) st hget hlines hstparse
  · intro hnl
    obtain ⟨ls, hsplit, hlen⟩ := splitNl_append_last name.data
      (statusDebug st).data hstnl
    have hcnt : 0 < name.data.count '\n' := List.count_pos_iff.mpr hnl

    have hlines : (rustLines (name ++ "\n" ++ statusDebug st)).length ≠ 2 := by
      unfold rustLines rustLinesL
      rw [hdata, hsplit]
      have hgl : (ls ++ [(statusDebug st).data]).getLast? =
          some (statusDebug st).data := List.getLast?_concat _
      rw [hgl, if_neg (by simp [hstne]), List.dropLast_concat]
      simp only [List.length_map, List.length_append, Option.toList_some,
        List.length_cons, List.length_nil, hlen]
      omega
    exact load_of_lines_ne_two _ id _ hget hlines

/-- Witness for C10: the name `"a"` round-trips (its CR-strip is the
identity); the name `"a\nb"` saves but the subsequent load panics. -/
theorem C10_save_load_witness :
    FileTodoList.load (FileTask.save ⟨1, ⟨Status.Open, "a"⟩⟩ []) 1 =
      some (Except.ok ⟨1, ⟨Status.Open, String.mk (stripCr "a".data)⟩⟩) ∧
    FileTodoList.load (FileTask.save ⟨1, ⟨Status.Open, "a\nb"⟩⟩ []) 1 = none :=
  ⟨(C10_save_load "a" Status.Open [] 1).1 (by decide),
    (C10_save_load "a\nb" Status.Open [] 1).2 (by decide)⟩

end Ado
